import Mathlib

/-
Verification of the navigation / path-finding core (`PathFinder`) of the
Editor repository.  The TypeScript source is shallowly embedded below:

  * JS numbers are modelled as rationals (`ℚ`); the claims under study are
    about control flow, indexing and exact arithmetic identities, none of
    which depend on floating-point rounding.
  * `Vector3` is the structure `Point3`.
  * A babylonjs `AbstractMesh` is modelled by its world bounding box
    (minimum / maximum corners and the world-space center of its bounding
    box) together with an abstract ray-intersection oracle
    `cast : Ray → Option Point3`, standing for
    `Ray.intersectsMeshes` / `pickedPoint` which live in the external
    rendering engine.  The oracle is an opaque parameter of the model:
    `fill` is verified for every possible intersection behaviour.
  * `javascript-astar`'s `Graph` (constructed with `{ diagonal: false }`)
    is embedded by `Graph`/`GridNode`: one node per cell, `weight` taken
    from the buffer cell, `isWall ⟺ weight === 0`, neighbours = the four
    orthogonally adjacent nodes that exist in the grid.
  * Exceptions (e.g. `new Array(n)` with a negative length throwing a
    `RangeError`) are modelled with `Option`: `none` means the JS code
    throws.
-/

/-- A 3D point / vector (babylonjs `Vector3`), with rational coordinates. -/
structure Point3 where
  x : ℚ
  y : ℚ
  z : ℚ
deriving DecidableEq

/-- babylonjs `Scalar.Lerp(start, end, amount) = start + (end - start) * amount`. -/
def lerp (a b t : ℚ) : ℚ := a + (b - a) * t

/-- Squared Euclidean distance.  `Vector3.Distance` is the square root of
this; since the square root is strictly monotone on nonnegative numbers,
all comparisons of distances in the source are equivalent to comparisons
of squared distances, which keeps the model inside `ℚ`. -/
def dist2 (p q : Point3) : ℚ :=
  (p.x - q.x) ^ 2 + (p.y - q.y) ^ 2 + (p.z - q.z) ^ 2

/-- A downward probe ray (babylonjs `Ray`): origin, direction, length. -/
structure Ray3 where
  origin : Point3
  dir : Point3
  len : ℚ
deriving DecidableEq

/-- A castable surface (babylonjs `AbstractMesh`), reduced to the data the
`PathFinder` reads: the world bounding box min/max corners (`_boundingInfo`
after `update`), the bounding box's world center, and the abstract
ray-intersection oracle standing for the rendering engine's
ray-vs-geometry test (`some p` = hit with picked point `p`). -/
structure Mesh where
  minB : Point3
  maxB : Point3
  center : Point3
  cast : Ray3 → Option Point3

/-- `ray.intersectsMeshes(ms, false)` followed by `p.find(p => p.hit)`:
the first mesh (in list order) whose oracle reports a hit. -/
def intersectsMeshes (ms : List Mesh) (r : Ray3) : Option Point3 :=
  ms.findSome? (fun m => m.cast r)

/-- JS `a || b` for an optional numeric argument `a`: the default `b` is
used both when `a` is absent and when `a` is `0` (falsy). -/
def jsOr (a : Option ℚ) (b : ℚ) : ℚ :=
  match a with
  | none => b
  | some v => if v = 0 then b else v

/-- JS `n >> 0` on an integral value: wrap into the signed 32-bit range. -/
def toInt32 (n : ℤ) : ℤ := ((n + 2 ^ 31) % 2 ^ 32) - 2 ^ 31

/-- A node of the `javascript-astar` grid graph: coordinates, the weight
copied from the buffer cell (`none` models a JS `undefined` cell), and the
`point` attached afterwards by `fill`. -/
structure GridNode where
  gx : ℕ
  gy : ℕ
  weight : Option ℕ
  point : Option Point3
deriving DecidableEq

/-- The `javascript-astar` graph: `grid[x][y]` is the node of cell `(x,y)`. -/
structure Graph where
  grid : List (List GridNode)
deriving DecidableEq

/-- `new Graph(buffer, { diagonal: false })`: one node per buffer cell,
weight taken from the cell, no point attached yet. -/
def Graph.build (buffer : List (List (Option ℕ))) : Graph :=
  ⟨buffer.mapIdx (fun x col => col.mapIdx (fun y w => ⟨x, y, w, none⟩))⟩

/-- `graph.grid[x][y]`, `none` when the access is out of range. -/
def Graph.node? (g : Graph) (x y : ℕ) : Option GridNode :=
  (g.grid.get? x).bind (fun col => col.get? y)

/-- `GridNode.isWall(): this.weight === 0` (an `undefined` weight is not a
wall under JS strict equality). -/
def Graph.isWallAt (g : Graph) (c : ℕ × ℕ) : Bool :=
  match g.node? c.1 c.2 with
  | some n => n.weight = some 0
  | none => false

/-- Coordinates of the (up to four) orthogonal neighbours that exist in the
grid, in `javascript-astar`'s order West, East, South, North.  The source
guards each with `grid[x'] && grid[x'][y']`. -/
def Graph.neighborsCoords (g : Graph) (c : ℕ × ℕ) : List (ℕ × ℕ) :=
  let x := c.1
  let y := c.2
  (if x > 0 ∧ (g.node? (x - 1) y).isSome then [(x - 1, y)] else []) ++
  (if (g.node? (x + 1) y).isSome then [(x + 1, y)] else []) ++
  (if y > 0 ∧ (g.node? x (y - 1)).isSome then [(x, y - 1)] else []) ++
  (if (g.node? x (y + 1)).isSome then [(x, y + 1)] else [])

/-- The search can step from `a` to `b`: `b` is a neighbour of `a` and is
not a wall (`javascript-astar` skips wall neighbours during expansion). -/
def Graph.canStep (g : Graph) (a b : ℕ × ℕ) : Bool :=
  (g.neighborsCoords a).contains b && !(g.isWallAt b)

/-- Undirected edge of the navigation graph: traversable in both
directions. -/
def Graph.hasEdge (g : Graph) (a b : ℕ × ℕ) : Bool :=
  g.canStep a b && g.canStep b a

/-- The `PathFinder` instance state: grid dimensions, the walkability
buffer (`buffer[x][y]`; `none` models an `undefined` hole of a freshly
allocated JS array), the flat sampled-point array (`none` models the
`null` pushed on a ray miss), and the graph (absent until `fill` ran). -/
structure PF where
  width : ℕ
  height : ℕ
  buffer : List (List (Option ℕ))
  points : List (Option Point3)
  graph : Option Graph

/-- `buffer[x][y]`: outer `none` = out-of-range access, inner value = cell
content. -/
def PF.cellAt (pf : PF) (x y : ℕ) : Option (Option ℕ) :=
  (pf.buffer.get? x).bind (fun col => col.get? y)

/-- A cell is walkable when its buffer entry is the number `1`. -/
def PF.walkable (pf : PF) (c : ℕ × ℕ) : Prop :=
  pf.cellAt c.1 c.2 = some (some 1)

instance (pf : PF) (c : ℕ × ℕ) : Decidable (pf.walkable c) := by
  unfold PF.walkable; infer_instance

/-- `rebuildBuffers` for an already-nonnegative width (the internal call
`this.rebuildBuffers(this.width)` made by `fill`): resets the buffer to
`width` columns of `height` undefined cells and clears `points`; the graph
field is left untouched (the source never clears `this.graph` there). -/
def PF.rebuildN (pf : PF) (size : ℕ) : PF :=
  { pf with
    width := size
    height := size
    buffer := List.replicate size (List.replicate size (none : Option ℕ))
    points := [] }

/-- `rebuildBuffers(size)`: `width = height = size >> 0`; then
`new Array(this.width)` throws a `RangeError` when the truncated size is
negative (modelled by `none`); otherwise the buffer is `width` columns of
`height` undefined cells and `points` becomes `[]`. -/
def PF.rebuildBuffers (pf : PF) (size : ℤ) : Option PF :=
  if toInt32 size < 0 then none else some (pf.rebuildN (toInt32 size).toNat)

/-- The mesh-reduction loop of `fill`: starting from a `BoundingInfo`
whose corners are both `Vector3.Zero()` and a zero accumulator for the
average, fold every mesh into (component-wise min corner, component-wise
max corner, running sum of the meshes' bounding-box world centers). -/
def fillBoundsFold (ms : List Mesh) : Point3 × Point3 × Point3 :=
  ms.foldl
    (fun acc cm =>
      (⟨min acc.1.x cm.minB.x, min acc.1.y cm.minB.y, min acc.1.z cm.minB.z⟩,
       ⟨max acc.2.1.x cm.maxB.x, max acc.2.1.y cm.maxB.y, max acc.2.1.z cm.maxB.z⟩,
       ⟨acc.2.2.x + cm.center.x, acc.2.2.y + cm.center.y, acc.2.2.z + cm.center.z⟩))
    (⟨0, 0, 0⟩, ⟨0, 0, 0⟩, ⟨0, 0, 0⟩)

/-- The ray `fill` casts for cell `(x, y)`:
origin `s + (x·xd/width, rayHeight || (maxY + 10), y·yd/height)` where
`s = center − (xd/2, 0, yd/2)`, direction `(0,−1,0)`,
length `rayLength || 100`. -/
def fillRay (w h : ℕ) (ms : List Mesh) (rayHeight rayLength : Option ℚ)
    (x y : ℕ) : Ray3 :=
  let b := fillBoundsFold ms
  let n : ℚ := ms.length
  let average : Point3 := ⟨b.2.2.x / n, b.2.2.y / n, b.2.2.z / n⟩
  let xd : ℚ := |b.2.1.x| + |b.1.x|
  let yd : ℚ := |b.2.1.z| + |b.1.z|
  let s : Point3 := ⟨average.x - xd / 2, average.y - 0, average.z - yd / 2⟩
  { origin := ⟨s.x + (x * xd) / w, s.y + jsOr rayHeight (b.2.1.y + 10),
               s.z + (y * yd) / h⟩
    dir := ⟨0, -1, 0⟩
    len := jsOr rayLength 100 }

/-- The ray-cast outcome of `fill` at cell `(x, y)`. -/
def fillHit (w h : ℕ) (ms : List Mesh) (rayHeight rayLength : Option ℚ)
    (x y : ℕ) : Option Point3 :=
  intersectsMeshes ms (fillRay w h ms rayHeight rayLength x y)

/-- The point-attachment pass at the end of `fill`:
`graph.grid[x][y]['point'] = this.points[y * width + x]` (a JS
out-of-range read yields `undefined`, modelled by the `none` default). -/
def attachPoints (g : Graph) (pts : List (Option Point3)) (w : ℕ) : Graph :=
  ⟨g.grid.map (fun col => col.map
    (fun nd => { nd with point := pts.getD (nd.gy * w + nd.gx) none }))⟩

/-- `fill(castMeshes, rayHeight?, rayLength?)`: rebuild the buffers at the
current width, reduce the meshes' bounds, then for every cell `(x, y)`
(outer loop over `x`, inner over `y`) cast the downward ray; on a hit push
the picked point and set `buffer[x][y] = 1`, otherwise push `null` and set
`buffer[x][y] = 0`; finally build the `javascript-astar` graph from the
buffer and attach `points[y * width + x]` to node `(x, y)`. -/
def PF.fill (pf : PF) (ms : List Mesh) (rayHeight rayLength : Option ℚ) : PF :=
  let pf0 := pf.rebuildN pf.width
  let w := pf0.width
  let h := pf0.height
  let hitAt : ℕ → ℕ → Option Point3 := fillHit w h ms rayHeight rayLength
  let buffer : List (List (Option ℕ)) :=
    (List.range w).map (fun x => (List.range h).map
      (fun y => if (hitAt x y).isSome then some 1 else some 0))
  let points : List (Option Point3) :=
    (List.range w).flatMap (fun x => (List.range h).map (fun y => hitAt x y))
  let g := attachPoints (Graph.build buffer) points w
  { width := w, height := h, buffer := buffer, points := points,
    graph := some g }

/-- The endpoint-resolution loop of `fromTo`: scan `points` from index `i`,
skip `null` entries, and return the index of the first entry whose `x` and
`z` exactly equal the query's; `none` when the scan falls through. -/
def resolveIndexAux (q : Point3) : List (Option Point3) → ℕ → Option ℕ
  | [], _ => none
  | none :: rest, i => resolveIndexAux q rest (i + 1)
  | some p :: rest, i =>
    if p.x = q.x ∧ p.z = q.z then some i else resolveIndexAux q rest (i + 1)

/-- `fromTo`'s resolved linear index for a query point: the loop above
starting at index `0`, with the variable's initialiser `0` as fallback
when no entry matched. -/
def resolveIndex (pts : List (Option Point3)) (q : Point3) : ℕ :=
  (resolveIndexAux q pts 0).getD 0

/-- An entry of the point array matches a query when it is non-null and
agrees with the query on `x` and `z`. -/
def ptMatch (q : Point3) (op : Option Point3) : Bool :=
  match op with
  | some p => p.x = q.x ∧ p.z = q.z
  | none => false

/-- Walkable successors of a cell for the search: neighbours that are not
walls (`javascript-astar` skips wall neighbours during expansion). -/
def Graph.succCoords (g : Graph) (c : ℕ × ℕ) : List (ℕ × ℕ) :=
  (g.neighborsCoords c).filter (fun n => !(g.isWallAt n))

/-- One search step: `b` is a walkable neighbour of `a`. -/
def Graph.Steps (g : Graph) (a b : ℕ × ℕ) : Prop :=
  b ∈ g.succCoords a

/-- `n` is reachable from `s` by search steps. -/
def Graph.Reaches (g : Graph) (s n : ℕ × ℕ) : Prop :=
  Relation.ReflTransGen g.Steps s n

/-- The JS double `Math.sqrt(2)`, used by `javascript-astar`'s diagonal
heuristic, as an exact rational. -/
def sqrt2Approx : ℚ := 1.4142135623730951

/-- Modelled from the spec: the diagonal-distance heuristic of the
external `javascript-astar` package (not part of this repository's
sources): `D·(dx + dy) + (D2 − 2·D)·min(dx, dy)` with `D = 1`,
`D2 = Math.sqrt(2)`. -/
def diagHeur (a b : ℕ × ℕ) : ℚ :=
  let dx : ℚ := ((max a.1 b.1 - min a.1 b.1 : ℕ) : ℚ)
  let dy : ℚ := ((max a.2 b.2 - min a.2 b.2 : ℕ) : ℚ)
  (dx + dy) + (sqrt2Approx - 2) * min dx dy

/-- All coordinates that address an existing node of the grid. -/
def Graph.coordsList (g : Graph) : List (ℕ × ℕ) :=
  (List.range g.grid.length).flatMap
    (fun x => (List.range (g.grid.getD x []).length).map (fun y => (x, y)))

/-- Fuel that dominates the number of distinct discoverable nodes. -/
def Graph.searchFuel (g : Graph) : ℕ := g.coordsList.length + 1

/-- The nodes a breadth-first round discovers: walkable successors of the
frontier not seen before, deduplicated. -/
def bfsNews (g : Graph) (vis fr : List (ℕ × ℕ)) : List (ℕ × ℕ) :=
  ((fr.flatMap g.succCoords).filter (fun n => decide (n ∉ vis))).dedup

/-- Parent records for a round's discoveries: each new node is assigned
the first frontier node it is a successor of. -/
def bfsPar (g : Graph) (fr news : List (ℕ × ℕ)) :
    List ((ℕ × ℕ) × (ℕ × ℕ)) :=
  news.map (fun n =>
    (n, (fr.find? (fun f => (g.succCoords f).contains n)).getD n))

/-- Modelled from the spec: breadth-first exploration of the walkable
graph, standing for the node-expansion of the external `javascript-astar`
search (not part of this repository's sources).  State: discovered nodes
`vis`, the current frontier, and a parent record for every discovered
node.  Each round discovers the not-yet-seen walkable neighbours of the
frontier; the round's parent of a new node is the first frontier node it
is a successor of. -/
def bfsAux (g : Graph) :
    ℕ → List (ℕ × ℕ) → List (ℕ × ℕ) → List ((ℕ × ℕ) × (ℕ × ℕ)) →
    List (ℕ × ℕ) × List ((ℕ × ℕ) × (ℕ × ℕ))
  | 0, vis, _, par => (vis, par)
  | fuel + 1, vis, frontier, par =>
    let news := bfsNews g vis frontier
    if news = [] then (vis, par)
    else bfsAux g fuel (vis ++ news) news (par ++ bfsPar g frontier news)

/-- The exploration of the whole component of `s`. -/
def Graph.reachData (g : Graph) (s : ℕ × ℕ) :
    List (ℕ × ℕ) × List ((ℕ × ℕ) × (ℕ × ℕ)) :=
  bfsAux g g.searchFuel [s] [s] []

/-- The list of nodes the search can discover from `s`. -/
def Graph.reachableFrom (g : Graph) (s : ℕ × ℕ) : List (ℕ × ℕ) :=
  (g.reachData s).1

/-- Modelled from the spec: the "closest" fallback of the external search
package: keep the candidate with the strictly smaller heuristic value,
starting from the start node. -/
def closestBy (f : (ℕ × ℕ) → ℚ) : List (ℕ × ℕ) → (ℕ × ℕ) → (ℕ × ℕ)
  | [], best => best
  | n :: rest, best => closestBy f rest (if f n < f best then n else best)

/-- Path reconstruction along the recorded parents, ending at the target
node (the start node, having no parent record, starts the path). -/
def pathTo (par : List ((ℕ × ℕ) × (ℕ × ℕ))) : ℕ → (ℕ × ℕ) → List (ℕ × ℕ)
  | 0, n => [n]
  | fuel + 1, n =>
    match par.lookup n with
    | none => [n]
    | some p => pathTo par fuel p ++ [n]

/-- Modelled from the spec: `astar.search(graph, start, end,
{ heuristic: diagonal, closest: true })` of the external
`javascript-astar` package (not part of this repository's sources).
Explore the component of `s`; if `e` was discovered return the recorded
path to `e`, otherwise return the path to the discovered node closest to
`e` under the diagonal heuristic.  The function is total: no input makes
it raise. -/
def Graph.search (g : Graph) (s e : ℕ × ℕ) : List (ℕ × ℕ) :=
  let data := g.reachData s
  let tgt := if e ∈ data.1 then e else closestBy (fun n => diagHeur n e) data.1 s
  pathTo data.2 g.searchFuel tgt

/-- The `point` attached to the graph node at `c` (used as `p['point']`
by `fromTo`). -/
def Graph.pointAt (g : Graph) (c : ℕ × ℕ) : Option Point3 :=
  match g.node? c.1 c.2 with
  | some n => n.point
  | none => none

/-- The world-space projection at the end of `fromTo`: for each node of
the path (with its index), skip it when it has no attached point,
otherwise emit `(point.x, Lerp(from.y, to.y, index / path.length),
point.y)`. -/
def toWorldPath (nodePts : List (Option Point3)) (fromY toY : ℚ) : List Point3 :=
  nodePts.enum.filterMap (fun iop =>
    match iop.2 with
    | none => none
    | some p =>
      some ⟨p.x, lerp fromY toY ((iop.1 : ℚ) / (nodePts.length : ℚ)), p.y⟩)

/-- `fromTo(from, to)`: resolve both endpoints against the point array,
convert the linear indices to grid coordinates (`% height` for the start,
`% width` for the end, exactly as in the source), search, and project the
node path to world space.  (A JS call before any `fill` would fault on
`this.graph.grid`; the model returns `[]` there, a case no claim
touches.) -/
def PF.fromTo (pf : PF) (src dst : Point3) : List Point3 :=
  let fi := resolveIndex pf.points src
  let ti := resolveIndex pf.points dst
  let sc : ℕ × ℕ := (fi / pf.width, fi % pf.height)
  let ec : ℕ × ℕ := (ti / pf.width, ti % pf.width)
  match pf.graph with
  | none => []
  | some g =>
    toWorldPath ((g.search sc ec).map g.pointAt) src.y dst.y

/-- The non-null entries of the point array: the candidate set of
`findNearestPoint`. -/
def candidatePoints (pts : List (Option Point3)) : List Point3 :=
  pts.filterMap id

/-- One iteration of the `findNearestPoint` loop: skip a `null` entry;
otherwise replace the best-so-far when the new distance is strictly
smaller.  The accumulator's `none` distance models the initial
`Number.MAX_VALUE` sentinel (every real distance beats it), and distances
are compared squared (`Vector3.Distance` composes the same comparisons
with a strictly monotone square root). -/
def npStep (q : Point3) (acc : Point3 × Option ℚ) (op : Option Point3) :
    Point3 × Option ℚ :=
  match op with
  | none => acc
  | some p =>
    match acc.2 with
    | none => (p, some (dist2 p q))
    | some d => if dist2 p q < d then (p, some (dist2 p q)) else acc

/-- `findNearestPoint(point)`: fold over the point array keeping the
closest non-null point seen so far, starting from the query point itself. -/
def findNearestPoint (q : Point3) (pts : List (Option Point3)) : Point3 :=
  (pts.foldl (npStep q) ((q, none) : Point3 × Option ℚ)).1

/-- The combined bounding-box minimum as the claim words it: the
component-wise minimum over the surfaces' own minimum corners (no seed
other than the surfaces themselves). -/
def specCombinedMin (ms : List Mesh) : Option Point3 :=
  match ms with
  | [] => none
  | m :: rest =>
    some (rest.foldl
      (fun a n => ⟨min a.x n.minB.x, min a.y n.minB.y, min a.z n.minB.z⟩)
      m.minB)

/-- A surface for concrete evaluations: a 2×2-extent box whose oracle hits
exactly the ray originating over grid cell `(1, 0)` (world `x = 1`,
`z = 0`), picking the point `(1, 5, 0)`. -/
def exMesh : Mesh :=
  { minB := ⟨0, 0, 0⟩, maxB := ⟨2, 0, 2⟩, center := ⟨1, 0, 1⟩,
    cast := fun r => if r.origin.x = 1 ∧ r.origin.z = 0 then some ⟨1, 5, 0⟩ else none }

/-- A fresh 2-sized `PathFinder` state. -/
def pf2 : PF := ⟨2, 2, [], [], none⟩

/-- The 2×2 state after `fill([exMesh])`. -/
def pf2f : PF := pf2.fill [exMesh] none none

/-- A surface whose bounding box has all-positive minimum corner, for the
bounds-fold counterexample. -/
def exMesh4 : Mesh :=
  { minB := ⟨1, 2, 3⟩, maxB := ⟨4, 5, 6⟩, center := ⟨5/2, 7/2, 9/2⟩,
    cast := fun _ => none }

/-- A surface flattened onto the plane `x = z = 0` (degenerate horizontal
extents) whose oracle always reports a hit at `(0, 1, 0)`. -/
def exMeshDeg : Mesh :=
  { minB := ⟨0, -1, 0⟩, maxB := ⟨0, 5, 0⟩, center := ⟨0, 2, 0⟩,
    cast := fun _ => some ⟨0, 1, 0⟩ }

/-- A fresh 1-sized `PathFinder` state. -/
def pf1 : PF := ⟨1, 1, [], [], none⟩

lemma toInt32_eq_self {n : ℤ} (h1 : -2 ^ 31 ≤ n) (h2 : n < 2 ^ 31) :
    toInt32 n = n := by
  unfold toInt32
  omega

lemma rebuildN_not_walkable (pf : PF) (size : ℕ) (c : ℕ × ℕ) :
    ¬ (pf.rebuildN size).walkable c := by
  intro hc
  unfold PF.walkable PF.cellAt PF.rebuildN at hc
  simp only at hc
  rcases Option.bind_eq_some.mp hc with ⟨col, h1, h2⟩
  have hcol : col = List.replicate size (none : Option ℕ) :=
    List.eq_of_mem_replicate (List.get?_mem h1)
  subst hcol
  have := List.eq_of_mem_replicate (List.get?_mem h2)
  simp at this

/-- C6: the claim asserts `allocate(n)` produces "a point array sized
`width * height`"; in the source `rebuildBuffers` sets `this.points = []`,
so at size 2 the point array has length 0, not 4. -/
theorem C6_counterexample :
    (∃ pf', PF.rebuildBuffers ⟨0, 0, [], [], none⟩ 2 = some pf' ∧
        pf'.points.length = 0 ∧ pf'.width * pf'.height = 4) ∧
      (0 : ℕ) ≠ 4 := by
  refine ⟨⟨(PF.rebuildN ⟨0, 0, [], [], none⟩ 2), ?_, rfl, rfl⟩, by decide⟩
  rfl

/-- C6 (amended): for every integer size `n` with `0 < n < 2³¹`,
`rebuildBuffers (= allocate)` succeeds and yields `width = height = n`, a
`width × height` buffer of uninitialised (hence non-walkable) cells, and
an *empty* point array (the point array only reaches `width * height`
entries during a later `fill`), the mask and point array being reset. -/
theorem C6_allocate_amended (pf : PF) (n : ℤ) (h1 : 0 < n) (h2 : n < 2 ^ 31) :
    ∃ pf', pf.rebuildBuffers n = some pf' ∧
      pf'.width = n.toNat ∧ pf'.height = n.toNat ∧
      pf'.buffer = List.replicate n.toNat (List.replicate n.toNat none) ∧
      pf'.points = [] ∧
      ∀ c : ℕ × ℕ, ¬ pf'.walkable c := by
  have ht : toInt32 n = n := toInt32_eq_self (by linarith) h2
  refine ⟨pf.rebuildN n.toNat, ?_, rfl, rfl, rfl, rfl, rebuildN_not_walkable pf _⟩
  unfold PF.rebuildBuffers
  rw [ht, if_neg (by omega)]

/-- Witness for `C6_allocate_amended` at `n = 3`. -/
theorem C6_allocate_amended_witness :
    ∃ pf', PF.rebuildBuffers ⟨0, 0, [], [], none⟩ 3 = some pf' ∧
      pf'.width = (3 : ℤ).toNat ∧ pf'.height = (3 : ℤ).toNat ∧
      pf'.buffer = List.replicate (3 : ℤ).toNat
        (List.replicate (3 : ℤ).toNat none) ∧
      pf'.points = [] ∧
      ∀ c : ℕ × ℕ, ¬ pf'.walkable c :=
  C6_allocate_amended ⟨0, 0, [], [], none⟩ 3 (by decide) (by decide)

/-- C7: the claim asserts any non-positive size yields an empty buffer
without throwing; at size `-1` the source reaches
`new Array(-1)`, which throws a `RangeError` (modelled by `none`). -/
theorem C7_counterexample :
    PF.rebuildBuffers ⟨0, 0, [], [], none⟩ (-1) = none := by
  rfl

/-- C7 (amended): a size that truncates to `0` yields a zero-length buffer
and empty point array without throwing; a negative size (down to `-2³¹`)
makes `new Array` throw a `RangeError`. -/
theorem C7_allocate_nonpositive_amended (pf : PF) (n : ℤ)
    (hn : n ≤ 0) (hlo : -2 ^ 31 ≤ n) :
    (n = 0 → pf.rebuildBuffers n =
      some { pf with width := 0, height := 0, buffer := [], points := [] }) ∧
    (n < 0 → pf.rebuildBuffers n = none) := by
  have ht : toInt32 n = n := toInt32_eq_self hlo (by omega)
  constructor
  · rintro rfl
    rfl
  · intro hneg
    unfold PF.rebuildBuffers
    rw [ht, if_pos hneg]

/-- Witness for `C7_allocate_nonpositive_amended` at `n = 0` and `n = -5`. -/
theorem C7_allocate_nonpositive_amended_witness :
    (PF.rebuildBuffers ⟨3, 3, [], [], none⟩ 0 =
      some { width := 0, height := 0, buffer := [], points := [],
             graph := (none : Option Graph) }) ∧
    PF.rebuildBuffers ⟨3, 3, [], [], none⟩ (-5) = none :=
  ⟨(C7_allocate_nonpositive_amended ⟨3, 3, [], [], none⟩ 0 (by decide)
      (by decide)).1 rfl,
   (C7_allocate_nonpositive_amended ⟨3, 3, [], [], none⟩ (-5) (by decide)
      (by decide)).2 (by decide)⟩

/-- Index `j` of the point array holds a non-null point agreeing with the
query `q` on `x` and `z`. -/
def MatchAt (pts : List (Option Point3)) (q : Point3) (j : ℕ) : Prop :=
  ∃ p, pts.get? j = some (some p) ∧ p.x = q.x ∧ p.z = q.z

lemma resolveIndexAux_none (q : Point3) (l : List (Option Point3)) :
    ∀ i, resolveIndexAux q l i = none → ∀ j, ¬ MatchAt l q j := by
  induction l with
  | nil =>
    intro i _ j hm
    rcases hm with ⟨p, hp, -⟩
    simp at hp
  | cons op rest ih =>
    intro i h j hm
    rcases hm with ⟨p, hp, hx, hz⟩
    cases op with
    | none =>
      cases j with
      | zero => simp at hp
      | succ j =>
        simp only [resolveIndexAux] at h
        exact ih (i + 1) h j ⟨p, by simpa using hp, hx, hz⟩
    | some p0 =>
      simp only [resolveIndexAux] at h
      by_cases hc : p0.x = q.x ∧ p0.z = q.z
      · rw [if_pos hc] at h
        cases h
      · rw [if_neg hc] at h
        cases j with
        | zero =>
          simp only [List.get?_cons_zero, Option.some.injEq] at hp
          cases hp
          exact hc ⟨hx, hz⟩
        | succ j =>
          exact ih (i + 1) h j ⟨p, by simpa using hp, hx, hz⟩

lemma resolveIndexAux_some (q : Point3) (l : List (Option Point3)) :
    ∀ i r, resolveIndexAux q l i = some r →
      i ≤ r ∧ MatchAt l q (r - i) ∧ ∀ j < r - i, ¬ MatchAt l q j := by
  induction l with
  | nil =>
    intro i r h
    cases h
  | cons op rest ih =>
    intro i r h
    cases op with
    | none =>
      simp only [resolveIndexAux] at h
      obtain ⟨hle, hmatch, hnone⟩ := ih (i + 1) r h
      refine ⟨by omega, ?_, ?_⟩
      · rcases hmatch with ⟨p, hp, hx, hz⟩
        refine ⟨p, ?_, hx, hz⟩
        have : r - i = (r - (i + 1)) + 1 := by omega
        rw [this]
        simpa using hp
      · intro j hj hm
        rcases hm with ⟨p, hp, hx, hz⟩
        cases j with
        | zero => simp at hp
        | succ j =>
          exact hnone j (by omega) ⟨p, by simpa using hp, hx, hz⟩
    | some p0 =>
      simp only [resolveIndexAux] at h
      by_cases hc : p0.x = q.x ∧ p0.z = q.z
      · rw [if_pos hc] at h
        cases h
        refine ⟨le_refl _, ⟨p0, by simp, hc.1, hc.2⟩, ?_⟩
        intro j hj
        omega
      · rw [if_neg hc] at h
        obtain ⟨hle, hmatch, hnone⟩ := ih (i + 1) r h
        refine ⟨by omega, ?_, ?_⟩
        · rcases hmatch with ⟨p, hp, hx, hz⟩
          refine ⟨p, ?_, hx, hz⟩
          have : r - i = (r - (i + 1)) + 1 := by omega
          rw [this]
          simpa using hp
        · intro j hj hm
          rcases hm with ⟨p, hp, hx, hz⟩
          cases j with
          | zero =>
            simp only [List.get?_cons_zero, Option.some.injEq] at hp
            cases hp
            exact hc ⟨hx, hz⟩
          | succ j =>
            exact hnone j (by omega) ⟨p, by simpa using hp, hx, hz⟩

/-- C2: `fromTo` resolves each endpoint to the first (lowest-index)
non-null sampled point exactly matching the endpoint's `x` and `z`
(fallback index `0` when nothing matches), and converts the indices to
grid coordinates by `(⌊i/width⌋, i % height)` for the start and
`(⌊i/width⌋, i % width)` for the end, exactly as the source does. -/
theorem C2_fromTo_resolution (pts : List (Option Point3)) (q : Point3) :
    (∀ j < resolveIndex pts q, ¬ MatchAt pts q j)
    ∧ ((∃ j, MatchAt pts q j) → MatchAt pts q (resolveIndex pts q))
    ∧ ((∀ j, ¬ MatchAt pts q j) → resolveIndex pts q = 0)
    ∧ (∀ (pf : PF) (g : Graph) (src dst : Point3), pf.graph = some g →
        pf.fromTo src dst = toWorldPath
          ((g.search
            (resolveIndex pf.points src / pf.width,
             resolveIndex pf.points src % pf.height)
            (resolveIndex pf.points dst / pf.width,
             resolveIndex pf.points dst % pf.width)).map g.pointAt)
          src.y dst.y) := by
  refine ⟨?_, ?_, ?_, ?_⟩
  · intro j hj hm
    unfold resolveIndex at hj
    rcases hr : resolveIndexAux q pts 0 with _ | r
    · exact resolveIndexAux_none q pts 0 hr j hm
    · rw [hr] at hj
      obtain ⟨-, -, hnone⟩ := resolveIndexAux_some q pts 0 r hr
      exact hnone j (by simpa using hj) hm
  · rintro ⟨j, hj⟩
    unfold resolveIndex
    rcases hr : resolveIndexAux q pts 0 with _ | r
    · exact absurd hj (resolveIndexAux_none q pts 0 hr j)
    · obtain ⟨-, hmatch, -⟩ := resolveIndexAux_some q pts 0 r hr
      simpa using hmatch
  · intro hno
    unfold resolveIndex
    rcases hr : resolveIndexAux q pts 0 with _ | r
    · rfl
    · obtain ⟨-, hmatch, -⟩ := resolveIndexAux_some q pts 0 r hr
      exact absurd (by simpa using hmatch) (hno _)
  · intro pf g src dst hg
    unfold PF.fromTo
    rw [hg]

/-- Witness for `C2_fromTo_resolution`: in the point array of the
post-`fill` 2×2 state, the query `(1, 99, 0)` matches the sampled point at
linear index 2, and the resolution returns that index. -/
theorem C2_fromTo_resolution_witness :
    MatchAt pf2f.points ⟨1, 99, 0⟩ (resolveIndex pf2f.points ⟨1, 99, 0⟩) :=
  (C2_fromTo_resolution pf2f.points ⟨1, 99, 0⟩).2.1
    ⟨2, ⟨1, 5, 0⟩,
      by norm_num [pf2f, pf2, PF.fill, PF.rebuildN, fillHit, fillRay,
        fillBoundsFold, intersectsMeshes, exMesh, jsOr, List.range_succ],
      rfl, rfl⟩

lemma npFold_props (q : Point3) :
    ∀ (l : List (Option Point3)) (acc : Point3 × Option ℚ),
      (candidatePoints l = [] → l.foldl (npStep q) acc = acc)
      ∧ (l.foldl (npStep q) acc = acc ∨
          ((l.foldl (npStep q) acc).1 ∈ candidatePoints l ∧
           (l.foldl (npStep q) acc).2 =
             some (dist2 (l.foldl (npStep q) acc).1 q)))
      ∧ (∀ p ∈ candidatePoints l,
          ∃ d, (l.foldl (npStep q) acc).2 = some d ∧ d ≤ dist2 p q)
      ∧ (∀ d0, acc.2 = some d0 →
          ∃ d, (l.foldl (npStep q) acc).2 = some d ∧ d ≤ d0) := by
  intro l
  induction l with
  | nil =>
    intro acc
    refine ⟨fun _ => rfl, Or.inl rfl, ?_, ?_⟩
    · intro p hp
      simp [candidatePoints] at hp
    · intro d0 h
      exact ⟨d0, h, le_refl _⟩
  | cons op rest ih =>
    intro acc
    cases op with
    | none =>
      have hstep : npStep q acc none = acc := rfl
      have hcand : candidatePoints (none :: rest) = candidatePoints rest := by
        simp [candidatePoints]
      obtain ⟨i1, i2, i3, i4⟩ := ih acc
      refine ⟨?_, ?_, ?_, ?_⟩ <;>
        simp only [List.foldl_cons, hstep, hcand]
      · exact i1
      · exact i2
      · exact i3
      · exact i4
    | some p =>
      have hcand : candidatePoints (some p :: rest) = p :: candidatePoints rest := by
        simp [candidatePoints]
      rcases hacc : acc.2 with _ | d
      · -- MAX_VALUE sentinel still in place: the new point is taken
        have hstep : npStep q acc (some p) = (p, some (dist2 p q)) := by
          unfold npStep
          rw [hacc]
        obtain ⟨i1, i2, i3, i4⟩ := ih (p, some (dist2 p q))
        refine ⟨?_, ?_, ?_, ?_⟩ <;>
          simp only [List.foldl_cons, hstep, hcand]
        · intro h
          cases h
        · rcases i2 with heq | ⟨hmem, hcons⟩
          · rw [heq]
            exact Or.inr ⟨List.mem_cons_self _ _, rfl⟩
          · exact Or.inr ⟨List.mem_cons_of_mem _ hmem, hcons⟩
        · intro p' hp'
          rcases List.mem_cons.mp hp' with rfl | hp'
          · exact i4 (dist2 p' q) rfl
          · exact i3 p' hp'
        · intro d0 h
          cases h
      · -- a candidate was already recorded: strict-improvement test
        by_cases hlt : dist2 p q < d
        · have hstep : npStep q acc (some p) = (p, some (dist2 p q)) := by
            unfold npStep
            rw [hacc]
            simp [hlt]
          obtain ⟨i1, i2, i3, i4⟩ := ih (p, some (dist2 p q))
          refine ⟨?_, ?_, ?_, ?_⟩ <;>
            simp only [List.foldl_cons, hstep, hcand]
          · intro h
            cases h
          · rcases i2 with heq | ⟨hmem, hcons⟩
            · rw [heq]
              exact Or.inr ⟨List.mem_cons_self _ _, rfl⟩
            · exact Or.inr ⟨List.mem_cons_of_mem _ hmem, hcons⟩
          · intro p' hp'
            rcases List.mem_cons.mp hp' with rfl | hp'
            · exact i4 (dist2 p' q) rfl
            · exact i3 p' hp'
          · intro d0 h
            cases h
            obtain ⟨d', hd', hle'⟩ := i4 (dist2 p q) rfl
            exact ⟨d', hd', le_trans hle' (le_of_lt hlt)⟩
        · have hstep : npStep q acc (some p) = acc := by
            unfold npStep
            rw [hacc]
            simp [hlt]
          obtain ⟨i1, i2, i3, i4⟩ := ih acc
          refine ⟨?_, ?_, ?_, ?_⟩ <;>
            simp only [List.foldl_cons, hstep, hcand]
          · intro h
            cases h
          · rcases i2 with heq | ⟨hmem, hcons⟩
            · exact Or.inl heq
            · exact Or.inr ⟨List.mem_cons_of_mem _ hmem, hcons⟩
          · intro p' hp'
            rcases List.mem_cons.mp hp' with rfl | hp'
            · obtain ⟨d', hd', hle'⟩ := i4 d hacc
              exact ⟨d', hd', le_trans hle' (not_lt.mp hlt)⟩
            · exact i3 p' hp'
          · intro d0 h
            cases h
            exact i4 d hacc

/-- C10: `findNearestPoint` returns a point of the candidate set (the
non-null entries of the point array) whose Euclidean distance to the query
is minimal — distances compared squared, which orders identically — and
returns the query point itself unchanged when the candidate set is
empty. -/
theorem C10_findNearestPoint (q : Point3) (pts : List (Option Point3)) :
    (candidatePoints pts = [] → findNearestPoint q pts = q)
    ∧ (candidatePoints pts ≠ [] →
        findNearestPoint q pts ∈ candidatePoints pts
        ∧ ∀ p ∈ candidatePoints pts,
            dist2 (findNearestPoint q pts) q ≤ dist2 p q) := by
  obtain ⟨h1, h2, h3, -⟩ := npFold_props q pts ((q, none) : Point3 × Option ℚ)
  constructor
  · intro hemp
    unfold findNearestPoint
    rw [h1 hemp]
  · intro hne
    obtain ⟨p0, hp0⟩ := List.exists_mem_of_ne_nil _ hne
    obtain ⟨d0, hd0, -⟩ := h3 p0 hp0
    rcases h2 with heq | ⟨hmem, hcons⟩
    · rw [heq] at hd0
      cases hd0
    · unfold findNearestPoint
      refine ⟨hmem, ?_⟩
      intro p hp
      obtain ⟨d, hd, hle⟩ := h3 p hp
      rw [hcons] at hd
      cases hd
      exact hle

/-- Witness for `C10_findNearestPoint` on a three-entry array with one
null: the returned point is a distance minimiser among the two non-null
candidates. -/
theorem C10_findNearestPoint_witness :
    findNearestPoint ⟨0, 0, 0⟩ [none, some ⟨3, 0, 0⟩, some ⟨1, 0, 0⟩]
      ∈ candidatePoints [none, some ⟨3, 0, 0⟩, some ⟨1, 0, 0⟩]
    ∧ ∀ p ∈ candidatePoints [none, some ⟨3, 0, 0⟩, some ⟨1, 0, 0⟩],
        dist2 (findNearestPoint ⟨0, 0, 0⟩
          [none, some ⟨3, 0, 0⟩, some ⟨1, 0, 0⟩]) ⟨0, 0, 0⟩ ≤ dist2 p ⟨0, 0, 0⟩ :=
  (C10_findNearestPoint ⟨0, 0, 0⟩ _).2 (by simp [candidatePoints])

lemma lerp_mono {f t : ℚ} (h : f ≤ t) {a b : ℚ} (hab : a ≤ b) :
    lerp f t a ≤ lerp f t b := by
  unfold lerp
  have := mul_le_mul_of_nonneg_left hab (sub_nonneg.mpr h)
  linarith

lemma pairwise_filterMap_of_pairwise {α β : Type} {R : α → α → Prop}
    {S : β → β → Prop} (f : α → Option β)
    (H : ∀ a b, R a b → ∀ x, f a = some x → ∀ y, f b = some y → S x y) :
    ∀ l : List α, l.Pairwise R → (l.filterMap f).Pairwise S := by
  intro l
  induction l with
  | nil => intro; simp
  | cons a l ih =>
    intro hl
    obtain ⟨ha, hl'⟩ := List.pairwise_cons.mp hl
    rw [List.filterMap_cons]
    rcases hfa : f a with _ | b
    · exact ih hl'
    · refine List.pairwise_cons.mpr ⟨?_, ih hl'⟩
      intro y hy
      obtain ⟨c, hc, hfc⟩ := List.mem_filterMap.mp hy
      exact H a c (ha c hc) b hfa y hfc

lemma le_fst_of_mem_enumFrom {α : Type} :
    ∀ (l : List α) (k : ℕ) (x : ℕ × α), x ∈ l.enumFrom k → k ≤ x.1 := by
  intro l
  induction l with
  | nil => intro k x hx; simp at hx
  | cons a l ih =>
    intro k x hx
    rw [List.enumFrom_cons] at hx
    rcases List.mem_cons.mp hx with rfl | hx
    · exact le_refl _
    · exact le_trans (Nat.le_succ k) (ih (k + 1) x hx)

lemma pairwise_fst_lt_enumFrom {α : Type} :
    ∀ (l : List α) (k : ℕ),
      (l.enumFrom k).Pairwise (fun a b : ℕ × α => a.1 < b.1) := by
  intro l
  induction l with
  | nil => intro k; simp
  | cons a l ih =>
    intro k
    rw [List.enumFrom_cons]
    refine List.pairwise_cons.mpr ⟨?_, ih (k + 1)⟩
    intro x hx
    exact lt_of_lt_of_le (Nat.lt_succ_self k) (le_fst_of_mem_enumFrom l (k + 1) x hx)

/-- The elevation sequence of `toWorldPath` is the per-index interpolation
sequence with the absent nodes dropped. -/
lemma toWorldPath_map_y (nodePts : List (Option Point3)) (f t : ℚ) :
    (toWorldPath nodePts f t).map Point3.y =
      nodePts.enum.filterMap (fun iop =>
        match iop.2 with
        | none => none
        | some _ => some (lerp f t ((iop.1 : ℚ) / (nodePts.length : ℚ)))) := by
  unfold toWorldPath
  rw [List.map_filterMap]
  congr 1
  funext iop
  rcases iop with ⟨i, _ | p⟩ <;> rfl

/-- C5: the claim asserts the emitted elevation equals `toHeight` at the
last index (and `fromHeight` at the first).  On the node path
`[absent, (5,7,9)]` with heights `0 ≤ 2`, the single emitted elevation is
`lerp 0 2 (1/2) = 1`: it is both the first and the last emitted elevation
and differs from both `0` and `2`. -/
theorem C5_counterexample :
    (0 : ℚ) ≤ 2
    ∧ ((toWorldPath [none, some ⟨5, 7, 9⟩] 0 2).map Point3.y).head? = some 1
    ∧ ((toWorldPath [none, some ⟨5, 7, 9⟩] 0 2).map Point3.y).getLast? = some 1
    ∧ (1 : ℚ) ≠ 0 ∧ (1 : ℚ) ≠ 2 := by
  refine ⟨by norm_num, ?_, ?_, by norm_num, by norm_num⟩ <;>
    norm_num [toWorldPath, lerp, List.enum, List.enumFrom]

/-- C5 (amended): `toWorldPath` assigns the elevation
`lerp(fromHeight, toHeight, i / L)` where `i` is the node's index in the
*full* node path and `L` the full path length, skipping absent nodes; for
`fromHeight ≤ toHeight` the emitted elevations are monotone
non-decreasing; the first emitted elevation equals `fromHeight` when the
first node's point is present; the last emitted elevation equals
`lerp(fromHeight, toHeight, (L−1)/L)` when the last node's point is
present — and that value stays strictly below `toHeight` whenever
`fromHeight < toHeight` (the source divides by `path.length`, not
`path.length − 1`, so the claimed `toHeight` endpoint is never reached). -/
theorem C5_toWorldPath_amended (nodePts : List (Option Point3)) (f t : ℚ)
    (h : f ≤ t) :
    ((toWorldPath nodePts f t).map Point3.y).Pairwise (· ≤ ·)
    ∧ (∀ p rest, nodePts = some p :: rest →
        ((toWorldPath nodePts f t).map Point3.y).head? = some f)
    ∧ (∀ l p, nodePts = l ++ [some p] →
        ((toWorldPath nodePts f t).map Point3.y).getLast? =
          some (lerp f t (((nodePts.length : ℚ) - 1) / (nodePts.length : ℚ))))
    ∧ (f < t → 1 ≤ nodePts.length →
        lerp f t (((nodePts.length : ℚ) - 1) / (nodePts.length : ℚ)) < t) := by
  refine ⟨?_, ?_, ?_, ?_⟩
  · rw [toWorldPath_map_y]
    refine pairwise_filterMap_of_pairwise
      (R := fun a b : ℕ × Option Point3 => a.1 < b.1) _ ?_ _ ?_
    · rintro ⟨i, oi⟩ ⟨j, oj⟩ hij x hx y hy
      rcases oi with _ | pi
      · cases hx
      · rcases oj with _ | pj
        · cases hy
        · cases hx
          cases hy
          exact lerp_mono h (div_le_div_of_nonneg_right
            (by exact_mod_cast le_of_lt hij) (by positivity))
    · exact pairwise_fst_lt_enumFrom nodePts 0
  · rintro p rest rfl
    rw [toWorldPath_map_y, List.enum_cons, List.filterMap_cons]
    simp only [List.head?_cons, Nat.cast_zero, zero_div]
    rw [show lerp f t 0 = f by unfold lerp; ring]
  · rintro l p rfl
    rw [toWorldPath_map_y]
    have henum : (l ++ [some p]).enum =
        l.enum ++ [(l.length, some p)] := by
      unfold List.enum
      rw [List.enumFrom_append, Nat.zero_add]
      rfl
    rw [henum, List.filterMap_append]
    have hlast : (List.filterMap (fun iop : ℕ × Option Point3 =>
        match iop.2 with
        | none => none
        | some _ => some (lerp f t ((iop.1 : ℚ) /
            (((l ++ [some p]).length : ℚ))))) [(l.length, some p)]) =
        [lerp f t ((l.length : ℚ) / ((l ++ [some p]).length : ℚ))] := rfl
    rw [hlast, List.getLast?_concat]
    have harg : ((l.length : ℚ)) / (((l ++ [some p]).length : ℚ)) =
        (((l ++ [some p]).length : ℚ) - 1) / (((l ++ [some p]).length : ℚ)) := by
      push_cast [List.length_append]
      norm_num
    rw [harg]
  · intro hft hlen
    have hL : (1 : ℚ) ≤ (nodePts.length : ℚ) := by exact_mod_cast hlen
    have hLpos : (0 : ℚ) < (nodePts.length : ℚ) := by linarith
    have hq : ((nodePts.length : ℚ) - 1) / (nodePts.length : ℚ) < 1 := by
      rw [div_lt_one hLpos]
      linarith
    unfold lerp
    nlinarith [mul_lt_mul_of_pos_left hq (sub_pos.mpr hft)]

/-- Witness for `C5_toWorldPath_amended` on the two-node all-present path
with heights `0 ≤ 2`. -/
theorem C5_toWorldPath_amended_witness :
    ((toWorldPath [some ⟨0, 0, 0⟩, some ⟨1, 1, 1⟩] 0 2).map
      Point3.y).Pairwise (· ≤ ·)
    ∧ ((toWorldPath [some ⟨0, 0, 0⟩, some ⟨1, 1, 1⟩] 0 2).map
        Point3.y).head? = some 0
    ∧ ((toWorldPath [some ⟨0, 0, 0⟩, some ⟨1, 1, 1⟩] 0 2).map
        Point3.y).getLast? = some (lerp 0 2
          ((([some ⟨0, 0, 0⟩, some ⟨1, 1, 1⟩] :
            List (Option Point3)).length - 1 : ℚ) /
           (([some ⟨0, 0, 0⟩, some ⟨1, 1, 1⟩] :
            List (Option Point3)).length : ℚ))) := by
  obtain ⟨h1, h2, h3, -⟩ := C5_toWorldPath_amended
    [some ⟨0, 0, 0⟩, some ⟨1, 1, 1⟩] 0 2 (by norm_num)
  exact ⟨h1, h2 ⟨0, 0, 0⟩ [some ⟨1, 1, 1⟩] rfl,
    by simpa using h3 [some ⟨0, 0, 0⟩] ⟨1, 1, 1⟩ rfl⟩

lemma fill_width (pf : PF) (ms : List Mesh) (rH rL : Option ℚ) :
    (pf.fill ms rH rL).width = pf.width := rfl

lemma fill_height (pf : PF) (ms : List Mesh) (rH rL : Option ℚ) :
    (pf.fill ms rH rL).height = pf.width := rfl

lemma fill_points (pf : PF) (ms : List Mesh) (rH rL : Option ℚ) :
    (pf.fill ms rH rL).points =
      (List.range pf.width).flatMap (fun x => (List.range pf.width).map
        (fun y => fillHit pf.width pf.width ms rH rL x y)) := rfl

lemma fill_buffer (pf : PF) (ms : List Mesh) (rH rL : Option ℚ) :
    (pf.fill ms rH rL).buffer =
      (List.range pf.width).map (fun x => (List.range pf.width).map
        (fun y => if (fillHit pf.width pf.width ms rH rL x y).isSome
          then some 1 else some 0)) := rfl

lemma fill_graph (pf : PF) (ms : List Mesh) (rH rL : Option ℚ) :
    (pf.fill ms rH rL).graph =
      some (attachPoints (Graph.build (pf.fill ms rH rL).buffer)
        (pf.fill ms rH rL).points pf.width) := rfl

lemma get?_flatMap_fixed {α : Type} (F : ℕ → List α) (h : ℕ)
    (hlen : ∀ a, (F a).length = h) :
    ∀ (l : List ℕ) (x y : ℕ) (hx : x < l.length), y < h →
      (l.flatMap F).get? (x * h + y) = (F (l.get ⟨x, hx⟩)).get? y := by
  intro l
  induction l with
  | nil =>
    intro x y hx
    simp at hx
  | cons a l ih =>
    intro x y hx hy
    rw [List.flatMap_cons]
    cases x with
    | zero =>
      rw [List.get?_append]
      · simp
      · rw [hlen a]
        simpa using hy
    | succ x =>
      have hoff : (x + 1) * h + y = (F a).length + (x * h + y) := by
        rw [hlen a]
        ring
      rw [hoff, List.get?_append_right (by omega)]
      have : (F a).length + (x * h + y) - (F a).length = x * h + y := by omega
      rw [this]
      exact ih x y (by simpa using hx) hy

lemma get?_range {n i : ℕ} (h : i < n) : (List.range n).get? i = some i := by
  rw [List.get?_eq_get (by simpa using h)]
  simp

/-- C1: the claim places the sampled point of cell `(x, y)` at linear
index `y * width + x`; the rasterization loop actually pushes in
`x`-major order, so cell `(1, 0)` of the 2×2 example — the only cell whose
ray hits — stores its hit at index `1 * height + 0 = 2`, while the claimed
index `0 * width + 1 = 1` holds `null` even though the cell is marked
walkable. -/
theorem C1_counterexample :
    fillHit pf2f.width pf2f.height [exMesh] none none 1 0 = some ⟨1, 5, 0⟩
    ∧ pf2f.cellAt 1 0 = some (some 1)
    ∧ pf2f.points.get? (0 * pf2f.width + 1) = some none := by
  refine ⟨?_, ?_, ?_⟩ <;>
    norm_num [pf2f, pf2, PF.fill, PF.rebuildN, PF.cellAt, fillHit, fillRay,
      fillBoundsFold, intersectsMeshes, exMesh, jsOr, List.range_succ]

/-- C1 (amended): after `fill`, for every cell `(x, y)` of the grid: if
the downward ray cast at that cell hit, the hit's world point is recorded
in the point array at linear index `x * height + y` (the loop pushes in
`x`-major order; the index `y * width + x` of the claim is used only by
the later graph-attachment pass) and `buffer[x][y] = 1`; if no surface was
hit, `buffer[x][y] = 0` and the entry at `x * height + y` is `null`. -/
theorem C1_fill_amended (pf : PF) (ms : List Mesh) (rH rL : Option ℚ)
    (x y : ℕ) (hx : x < pf.width) (hy : y < pf.width) :
    (∀ p, fillHit pf.width pf.width ms rH rL x y = some p →
      (pf.fill ms rH rL).points.get?
          (x * (pf.fill ms rH rL).height + y) = some (some p)
      ∧ (pf.fill ms rH rL).cellAt x y = some (some 1))
    ∧ (fillHit pf.width pf.width ms rH rL x y = none →
      (pf.fill ms rH rL).points.get?
          (x * (pf.fill ms rH rL).height + y) = some none
      ∧ (pf.fill ms rH rL).cellAt x y = some (some 0)) := by
  have hpts : (pf.fill ms rH rL).points.get?
      (x * (pf.fill ms rH rL).height + y) =
      some (fillHit pf.width pf.width ms rH rL x y) := by
    rw [fill_points, fill_height]
    have := get?_flatMap_fixed
      (fun a => (List.range pf.width).map
        (fun b => fillHit pf.width pf.width ms rH rL a b))
      pf.width (fun a => by simp) (List.range pf.width) x y
      (by simpa using hx) hy
    rw [this, List.get_range, List.get?_map, get?_range hy]
    rfl
  have hcell : (pf.fill ms rH rL).cellAt x y =
      some (if (fillHit pf.width pf.width ms rH rL x y).isSome
        then some 1 else some 0) := by
    unfold PF.cellAt
    rw [fill_buffer]
    simp [List.get?_map, List.getElem?_range hx, List.getElem?_range hy]
  constructor
  · intro p hp
    rw [hp] at hpts
    rw [hp] at hcell
    exact ⟨hpts, by simpa using hcell⟩
  · intro hp
    rw [hp] at hpts
    rw [hp] at hcell
    exact ⟨hpts, by simpa using hcell⟩

/-- Witness for `C1_fill_amended`: the 2×2 example, cell `(1, 0)` whose
ray hits at `(1, 5, 0)`. -/
theorem C1_fill_amended_witness :
    (pf2.fill [exMesh] none none).points.get?
        (1 * (pf2.fill [exMesh] none none).height + 0) =
      some (some ⟨1, 5, 0⟩)
    ∧ (pf2.fill [exMesh] none none).cellAt 1 0 = some (some 1) :=
  (C1_fill_amended pf2 [exMesh] none none 1 0 (by norm_num [pf2])
    (by norm_num [pf2])).1 ⟨1, 5, 0⟩
    (by norm_num [pf2, fillHit, fillRay, fillBoundsFold, intersectsMeshes,
      exMesh, jsOr])

lemma boundsFold_components : ∀ (ms : List Mesh) (mn mx av : Point3),
    ms.foldl
      (fun (acc : Point3 × Point3 × Point3) (cm : Mesh) =>
        (⟨min acc.1.x cm.minB.x, min acc.1.y cm.minB.y, min acc.1.z cm.minB.z⟩,
         ⟨max acc.2.1.x cm.maxB.x, max acc.2.1.y cm.maxB.y, max acc.2.1.z cm.maxB.z⟩,
         ⟨acc.2.2.x + cm.center.x, acc.2.2.y + cm.center.y,
          acc.2.2.z + cm.center.z⟩))
      (mn, mx, av) =
      (⟨ms.foldl (fun a m => min a m.minB.x) mn.x,
        ms.foldl (fun a m => min a m.minB.y) mn.y,
        ms.foldl (fun a m => min a m.minB.z) mn.z⟩,
       ⟨ms.foldl (fun a m => max a m.maxB.x) mx.x,
        ms.foldl (fun a m => max a m.maxB.y) mx.y,
        ms.foldl (fun a m => max a m.maxB.z) mx.z⟩,
       ⟨ms.foldl (fun a m => a + m.center.x) av.x,
        ms.foldl (fun a m => a + m.center.y) av.y,
        ms.foldl (fun a m => a + m.center.z) av.z⟩) := by
  intro ms
  induction ms with
  | nil => intro mn mx av; rfl
  | cons m ms ih =>
    intro mn mx av
    simp only [List.foldl_cons]
    exact ih _ _ _

lemma foldl_add_eq_sum (f : Mesh → ℚ) :
    ∀ (ms : List Mesh) (init : ℚ),
      ms.foldl (fun a m => a + f m) init = init + (ms.map f).sum := by
  intro ms
  induction ms with
  | nil => intro init; simp
  | cons m ms ih =>
    intro init
    simp only [List.foldl_cons, List.map_cons, List.sum_cons]
    rw [ih]
    ring

/-- The combined bounding-box minimum as the amended claim words it:
component-wise minimum folded from the zero vector. -/
def claimMin (ms : List Mesh) : Point3 :=
  ⟨ms.foldl (fun a m => min a m.minB.x) 0,
   ms.foldl (fun a m => min a m.minB.y) 0,
   ms.foldl (fun a m => min a m.minB.z) 0⟩

/-- The combined bounding-box maximum, folded from the zero vector. -/
def claimMax (ms : List Mesh) : Point3 :=
  ⟨ms.foldl (fun a m => max a m.maxB.x) 0,
   ms.foldl (fun a m => max a m.maxB.y) 0,
   ms.foldl (fun a m => max a m.maxB.z) 0⟩

/-- The mean of the surfaces' own bounding-box centers. -/
def claimCenter (ms : List Mesh) : Point3 :=
  ⟨(ms.map (fun m => m.center.x)).sum / ms.length,
   (ms.map (fun m => m.center.y)).sum / ms.length,
   (ms.map (fun m => m.center.z)).sum / ms.length⟩

/-- C4: the claim computes the combined bounds as the component-wise
min/max *of the surfaces alone*; the source seeds the fold with a
`BoundingInfo(Zero, Zero)`, so a surface whose box is entirely positive
(min corner `(1,2,3)`) yields combined minimum `(0,0,0)`, not `(1,2,3)`.
The claim's `rayHeight ?? maxY+10` is also wrong for a *provided*
`rayHeight = 0`: the JS `||` treats `0` as falsy, so the cast height is
`centerY + (maxY + 10) = 37/2` instead of the claimed `centerY + 0 =
7/2`. -/
theorem C4_counterexample :
    (fillBoundsFold [exMesh4]).1 = ⟨0, 0, 0⟩
    ∧ specCombinedMin [exMesh4] = some ⟨1, 2, 3⟩
    ∧ (⟨0, 0, 0⟩ : Point3) ≠ ⟨1, 2, 3⟩
    ∧ (fillRay 1 1 [exMesh4] (some 0) none 0 0).origin.y = 37 / 2
    ∧ (7 / 2 : ℚ) + 0 ≠ 37 / 2 := by
  refine ⟨?_, ?_, ?_, ?_, ?_⟩ <;>
    norm_num [fillBoundsFold, specCombinedMin, fillRay, exMesh4, jsOr,
      Point3.mk.injEq]

/-- C4 (amended): for every non-empty surface set, `fill` casts, for cell
`(x, y)`, a ray of direction `(0,−1,0)` and length `rayLength` (or `100`
when absent or `0`), originating at `start + (x·xd/width, h, y·yd/height)`
with `start = center − (xd/2, 0, yd/2)`, `center` the mean of the
surfaces' bounding-box centers, `xd = |maxX| + |minX|`,
`yd = |maxZ| + |minZ|`, `h = rayHeight` (or `maxY + 10` when absent or
`0`), where min/max are the component-wise folds *seeded with the zero
vector* (so the combined box always contains the world origin). -/
theorem C4_fill_rays_amended (pf : PF) (ms : List Mesh) (rH rL : Option ℚ)
    (x y : ℕ) (hms : ms ≠ []) :
    fillRay pf.width pf.width ms rH rL x y =
      { origin :=
          ⟨(claimCenter ms).x -
              (|(claimMax ms).x| + |(claimMin ms).x|) / 2 +
              (x * (|(claimMax ms).x| + |(claimMin ms).x|)) / pf.width,
           (claimCenter ms).y - 0 + jsOr rH ((claimMax ms).y + 10),
           (claimCenter ms).z -
              (|(claimMax ms).z| + |(claimMin ms).z|) / 2 +
              (y * (|(claimMax ms).z| + |(claimMin ms).z|)) / pf.width⟩
        dir := ⟨0, -1, 0⟩
        len := jsOr rL 100 } := by
  unfold fillRay fillBoundsFold
  rw [boundsFold_components]
  simp only [claimMin, claimMax, claimCenter, Ray3.mk.injEq, Point3.mk.injEq]
  refine ⟨⟨?_, ?_, ?_⟩, trivial, trivial⟩
  · rw [foldl_add_eq_sum]
    ring
  · rw [foldl_add_eq_sum]
    ring
  · rw [foldl_add_eq_sum]
    ring

/-- Witness for `C4_fill_rays_amended` at the singleton surface set
`[exMesh4]`, cell `(0, 0)` of the 1×1 grid, with `rayHeight = 0`. -/
theorem C4_fill_rays_amended_witness :
    fillRay pf1.width pf1.width [exMesh4] (some 0) none 0 0 =
      { origin :=
          ⟨(claimCenter [exMesh4]).x -
              (|(claimMax [exMesh4]).x| + |(claimMin [exMesh4]).x|) / 2 +
              (0 * (|(claimMax [exMesh4]).x| + |(claimMin [exMesh4]).x|)) /
                pf1.width,
           (claimCenter [exMesh4]).y - 0 +
              jsOr (some 0) ((claimMax [exMesh4]).y + 10),
           (claimCenter [exMesh4]).z -
              (|(claimMax [exMesh4]).z| + |(claimMin [exMesh4]).z|) / 2 +
              (0 * (|(claimMax [exMesh4]).z| + |(claimMin [exMesh4]).z|)) /
                pf1.width⟩
        dir := ⟨0, -1, 0⟩
        len := jsOr none 100 } :=
  C4_fill_rays_amended pf1 [exMesh4] (some 0) none 0 0 (by simp)

lemma fill_cellAt (pf : PF) (ms : List Mesh) (rH rL : Option ℚ)
    (x y : ℕ) (hx : x < pf.width) (hy : y < pf.width) :
    (pf.fill ms rH rL).cellAt x y =
      some (if (fillHit pf.width pf.width ms rH rL x y).isSome
        then some 1 else some 0) := by
  unfold PF.cellAt
  rw [fill_buffer]
  simp [List.get?_map, List.getElem?_range hx, List.getElem?_range hy]

/-- C8: the claim also asserts that degenerate bounds (`xd = 0` or
`yd = 0`) yield an all-unwalkable grid.  The source has no special case
for degenerate bounds: all rays are still cast (from a single vertical
line), and any hit marks its cell walkable.  `exMeshDeg` is flattened onto
`x = z = 0`, so `xd = yd = 0`, yet its cell `(0,0)` ends up walkable. -/
theorem C8_counterexample :
    (|(fillBoundsFold [exMeshDeg]).2.1.x| + |(fillBoundsFold [exMeshDeg]).1.x|
      = 0)
    ∧ (|(fillBoundsFold [exMeshDeg]).2.1.z| + |(fillBoundsFold [exMeshDeg]).1.z|
      = 0)
    ∧ (pf1.fill [exMeshDeg] none none).cellAt 0 0 = some (some 1) := by
  refine ⟨?_, ?_, ?_⟩ <;>
    norm_num [fillBoundsFold, exMeshDeg, PF.fill, PF.rebuildN, PF.cellAt, pf1,
      fillHit, fillRay, intersectsMeshes, jsOr, List.range_succ]

/-- C8 (amended): rasterizing an empty surface set marks every cell of the
grid unwalkable, and a zero grid size yields an empty buffer; neither
crashes (the model is a total function; in JS the `0/0 = NaN` average
propagates into ray origins but no exception occurs and no empty-set ray
reports a hit).  Degenerate bounds, however, are *not* special-cased:
cells whose ray still hits a surface are marked walkable
(see the counterexample). -/
theorem C8_fill_empty_amended (pf : PF) (rH rL : Option ℚ) :
    (∀ x y, x < pf.width → y < pf.width →
      (pf.fill [] rH rL).cellAt x y = some (some 0))
    ∧ (∀ ms : List Mesh, pf.width = 0 → (pf.fill ms rH rL).buffer = []) := by
  constructor
  · intro x y hx hy
    rw [fill_cellAt pf [] rH rL x y hx hy]
    rfl
  · intro ms hw
    rw [fill_buffer, hw]
    rfl

/-- Witness for `C8_fill_empty_amended`: an in-range cell of the 2×2 grid
after an empty-set `fill`, and the empty buffer of a zero-sized `fill`. -/
theorem C8_fill_empty_amended_witness :
    (pf2.fill [] none none).cellAt 0 1 = some (some 0)
    ∧ (PF.fill ⟨0, 0, [], [], none⟩ [exMesh] none none).buffer = [] :=
  ⟨(C8_fill_empty_amended pf2 none none).1 0 1 (by decide) (by decide),
   (C8_fill_empty_amended ⟨0, 0, [], [], none⟩ none none).2 [exMesh] rfl⟩

/-- Orthogonal (4-)adjacency of two grid cells. -/
def adj4 (a b : ℕ × ℕ) : Prop :=
  (b.1 = a.1 + 1 ∧ b.2 = a.2) ∨ (a.1 = b.1 + 1 ∧ b.2 = a.2) ∨
  (b.2 = a.2 + 1 ∧ b.1 = a.1) ∨ (a.2 = b.2 + 1 ∧ b.1 = a.1)

lemma adj4_symm {a b : ℕ × ℕ} (h : adj4 a b) : adj4 b a := by
  unfold adj4 at h ⊢
  tauto

lemma mem_guard {α : Type} (c : Prop) [Decidable c] (v x : α) :
    (x ∈ if c then [v] else []) ↔ c ∧ x = v := by
  split
  · simp_all
  · simp_all

lemma node?_attach_build (buffer : List (List (Option ℕ)))
    (pts : List (Option Point3)) (w x y : ℕ) :
    (attachPoints (Graph.build buffer) pts w).node? x y =
      ((buffer.get? x).bind (fun col => col.get? y)).map
        (fun wgt => ⟨x, y, wgt, pts.getD (y * w + x) none⟩) := by
  unfold Graph.node? attachPoints Graph.build
  simp only [List.get?_eq_getElem?, List.getElem?_map, List.getElem?_mapIdx]
  rcases hx : buffer[x]? with _ | col
  · rfl
  · simp only [Option.map_some', Option.some_bind, List.get?_eq_getElem?,
      List.getElem?_map, List.getElem?_mapIdx]
    rcases hy : col[y]? with _ | wgt
    · rfl
    · rfl

lemma fill_node? (pf : PF) (ms : List Mesh) (rH rL : Option ℚ) (G : Graph)
    (hG : (pf.fill ms rH rL).graph = some G) (x y : ℕ) :
    G.node? x y = ((pf.fill ms rH rL).cellAt x y).map
      (fun wgt => ⟨x, y, wgt, (pf.fill ms rH rL).points.getD
        (y * pf.width + x) none⟩) := by
  have h := fill_graph pf ms rH rL
  rw [hG] at h
  cases h
  exact node?_attach_build _ _ _ _ _

lemma fill_cellAt_none (pf : PF) (ms : List Mesh) (rH rL : Option ℚ)
    (x y : ℕ) (h : ¬(x < pf.width ∧ y < pf.width)) :
    (pf.fill ms rH rL).cellAt x y = none := by
  unfold PF.cellAt
  rw [fill_buffer]
  by_cases hx : x < pf.width
  · have hy : pf.width ≤ y := by omega
    rcases hcol : ((List.range pf.width).map (fun x => (List.range pf.width).map
        (fun y => if (fillHit pf.width pf.width ms rH rL x y).isSome
          then some 1 else some 0))).get? x with _ | col
    · rfl
    · have hmem := List.get?_mem hcol
      obtain ⟨a, -, rfl⟩ := List.mem_map.mp hmem
      have : ((List.range pf.width).map
          (fun y => if (fillHit pf.width pf.width ms rH rL a y).isSome
            then some 1 else some 0)).get? y = none := by
        rw [List.get?_eq_none]
        simpa using hy
      simp only [Option.some_bind]
      exact this
  · have : ((List.range pf.width).map (fun x => (List.range pf.width).map
        (fun y => if (fillHit pf.width pf.width ms rH rL x y).isSome
          then some 1 else some 0))).get? x = none := by
      rw [List.get?_eq_none]
      simpa using Nat.le_of_not_lt hx
    rw [this]
    rfl

lemma fill_node?_isSome (pf : PF) (ms : List Mesh) (rH rL : Option ℚ)
    (G : Graph) (hG : (pf.fill ms rH rL).graph = some G) (x y : ℕ) :
    (G.node? x y).isSome = true ↔ (x < pf.width ∧ y < pf.width) := by
  rw [fill_node? pf ms rH rL G hG]
  constructor
  · intro h
    by_contra hc
    rw [fill_cellAt_none pf ms rH rL x y hc] at h
    cases h
  · intro h
    rw [fill_cellAt pf ms rH rL x y h.1 h.2]
    rfl

lemma fill_walkable_iff (pf : PF) (ms : List Mesh) (rH rL : Option ℚ)
    (G : Graph) (hG : (pf.fill ms rH rL).graph = some G) (c : ℕ × ℕ) :
    ((G.node? c.1 c.2).isSome = true ∧ G.isWallAt c = false) ↔
      (pf.fill ms rH rL).walkable c := by
  unfold Graph.isWallAt PF.walkable
  rw [fill_node? pf ms rH rL G hG]
  by_cases h : c.1 < pf.width ∧ c.2 < pf.width
  · rw [fill_cellAt pf ms rH rL c.1 c.2 h.1 h.2]
    by_cases hhit : (fillHit pf.width pf.width ms rH rL c.1 c.2).isSome = true
    · simp [hhit]
    · simp [Bool.not_eq_true] at hhit
      simp [hhit]
  · rw [fill_cellAt_none pf ms rH rL c.1 c.2 h]
    simp

lemma fill_mem_neighborsCoords (pf : PF) (ms : List Mesh) (rH rL : Option ℚ)
    (G : Graph) (hG : (pf.fill ms rH rL).graph = some G) (a b : ℕ × ℕ) :
    b ∈ G.neighborsCoords a ↔
      (adj4 a b ∧ b.1 < pf.width ∧ b.2 < pf.width) := by
  obtain ⟨a1, a2⟩ := a
  obtain ⟨b1, b2⟩ := b
  unfold Graph.neighborsCoords
  simp only [List.mem_append, mem_guard]
  rw [Option.isSome_iff_exists, Option.isSome_iff_exists,
    Option.isSome_iff_exists, Option.isSome_iff_exists] at *
  simp only [← Option.isSome_iff_exists]
  rw [fill_node?_isSome pf ms rH rL G hG, fill_node?_isSome pf ms rH rL G hG,
    fill_node?_isSome pf ms rH rL G hG, fill_node?_isSome pf ms rH rL G hG]
  unfold adj4
  simp only [Prod.mk.injEq]
  omega

/-- C3: the navigation graph built by `fill` has exactly one node per grid
cell (a node exists at `(x, y)` iff the cell is in range, and it carries
exactly those coordinates); two nodes share a (bidirectionally
traversable) edge iff their cells are orthogonally adjacent and both
walkable — in particular there are no diagonal edges and no edges between
non-adjacent cells; and node `(x, y)` carries the sampled point at linear
index `y * width + x`. -/
theorem C3_graph_build (pf : PF) (ms : List Mesh) (rH rL : Option ℚ)
    (G : Graph) (hG : (pf.fill ms rH rL).graph = some G) :
    ((∀ x y, (G.node? x y).isSome = true ↔ (x < pf.width ∧ y < pf.width))
      ∧ (∀ x y n, G.node? x y = some n → n.gx = x ∧ n.gy = y))
    ∧ (∀ a b, G.hasEdge a b = true ↔
        (adj4 a b ∧ (pf.fill ms rH rL).walkable a
          ∧ (pf.fill ms rH rL).walkable b))
    ∧ (∀ x y, x < pf.width → y < pf.width →
        G.pointAt (x, y) =
          (pf.fill ms rH rL).points.getD (y * pf.width + x) none) := by
  refine ⟨⟨fill_node?_isSome pf ms rH rL G hG, ?_⟩, ?_, ?_⟩
  · intro x y n hn
    rw [fill_node? pf ms rH rL G hG] at hn
    rcases hcell : (pf.fill ms rH rL).cellAt x y with _ | wgt
    · rw [hcell] at hn
      cases hn
    · rw [hcell] at hn
      cases hn
      exact ⟨rfl, rfl⟩
  · intro a b
    unfold Graph.hasEdge Graph.canStep
    simp only [Bool.and_eq_true, List.elem_iff, Bool.not_eq_true']
    rw [fill_mem_neighborsCoords pf ms rH rL G hG,
      fill_mem_neighborsCoords pf ms rH rL G hG]
    constructor
    · rintro ⟨⟨⟨hadj, hbw⟩, hwb⟩, ⟨⟨hadj', haw⟩, hwa⟩⟩
      refine ⟨hadj, ?_, ?_⟩
      · exact (fill_walkable_iff pf ms rH rL G hG a).mp
          ⟨(fill_node?_isSome pf ms rH rL G hG a.1 a.2).mpr haw, hwa⟩
      · exact (fill_walkable_iff pf ms rH rL G hG b).mp
          ⟨(fill_node?_isSome pf ms rH rL G hG b.1 b.2).mpr hbw, hwb⟩
    · rintro ⟨hadj, hwa, hwb⟩
      obtain ⟨hsa, hwalla⟩ := (fill_walkable_iff pf ms rH rL G hG a).mpr hwa
      obtain ⟨hsb, hwallb⟩ := (fill_walkable_iff pf ms rH rL G hG b).mpr hwb
      exact ⟨⟨⟨hadj, (fill_node?_isSome pf ms rH rL G hG b.1 b.2).mp hsb⟩,
        hwallb⟩,
        ⟨⟨adj4_symm hadj, (fill_node?_isSome pf ms rH rL G hG a.1 a.2).mp hsa⟩,
        hwalla⟩⟩
  · intro x y hx hy
    unfold Graph.pointAt
    rw [fill_node? pf ms rH rL G hG,
      fill_cellAt pf ms rH rL x y hx hy]
    rfl

/-- Witness for `C3_graph_build` on the 2×2 example state: node `(1, 0)`
carries the point at linear index `0 * 2 + 1`, and the edge test between
`(1, 0)` and `(1, 1)` reduces to adjacency plus walkability of both
cells. -/
theorem C3_graph_build_witness :
    ∃ G, pf2f.graph = some G ∧
      G.pointAt (1, 0) = pf2f.points.getD (0 * pf2.width + 1) none ∧
      (G.hasEdge (1, 0) (1, 1) = true ↔
        (adj4 (1, 0) (1, 1) ∧ pf2f.walkable (1, 0) ∧ pf2f.walkable (1, 1))) := by
  refine ⟨attachPoints (Graph.build pf2f.buffer) pf2f.points pf2.width,
    fill_graph pf2 [exMesh] none none, ?_, ?_⟩
  · exact (C3_graph_build pf2 [exMesh] none none _
      (fill_graph pf2 [exMesh] none none)).2.2 1 0 (by decide) (by decide)
  · exact (C3_graph_build pf2 [exMesh] none none _
      (fill_graph pf2 [exMesh] none none)).2.1 (1, 0) (1, 1)

lemma pathTo_getLast? (par : List ((ℕ × ℕ) × (ℕ × ℕ))) :
    ∀ (fuel : ℕ) (n : ℕ × ℕ), (pathTo par fuel n).getLast? = some n := by
  intro fuel
  induction fuel with
  | zero => intro n; rfl
  | succ fuel ih =>
    intro n
    unfold pathTo
    rcases par.lookup n with _ | p
    · rfl
    · rw [List.getLast?_concat]

lemma lookup_eq_none_of_keys_ne {par : List ((ℕ × ℕ) × (ℕ × ℕ))} {s : ℕ × ℕ}
    (h : ∀ kp ∈ par, kp.1 ≠ s) : par.lookup s = none := by
  induction par with
  | nil => rfl
  | cons kp par ih =>
    have hne : kp.1 ≠ s := h kp (List.mem_cons_self _ _)
    unfold List.lookup
    have : (s == kp.1) = false := by
      rw [beq_eq_false_iff_ne]
      exact fun hc => hne hc.symm
    rw [this]
    exact ih (fun x hx => h x (List.mem_cons_of_mem _ hx))

lemma pathTo_of_lookup_none {par : List ((ℕ × ℕ) × (ℕ × ℕ))} {n : ℕ × ℕ}
    (h : par.lookup n = none) (fuel : ℕ) : pathTo par fuel n = [n] := by
  cases fuel with
  | zero => rfl
  | succ fuel =>
    unfold pathTo
    rw [h]

lemma closestBy_props (f : (ℕ × ℕ) → ℚ) :
    ∀ (l : List (ℕ × ℕ)) (best : ℕ × ℕ),
      (closestBy f l best = best ∨ closestBy f l best ∈ l)
      ∧ f (closestBy f l best) ≤ f best
      ∧ ∀ x ∈ l, f (closestBy f l best) ≤ f x := by
  intro l
  induction l with
  | nil =>
    intro best
    exact ⟨Or.inl rfl, le_refl _, by intro x hx; cases hx⟩
  | cons n rest ih =>
    intro best
    unfold closestBy
    by_cases hlt : f n < f best
    · rw [if_pos hlt]
      obtain ⟨hmem, hle, hall⟩ := ih n
      refine ⟨?_, le_trans hle (le_of_lt hlt), ?_⟩
      · rcases hmem with heq | hmem
        · exact Or.inr (by rw [heq]; exact List.mem_cons_self _ _)
        · exact Or.inr (List.mem_cons_of_mem _ hmem)
      · intro x hx
        rcases List.mem_cons.mp hx with rfl | hx
        · exact hle
        · exact hall x hx
    · rw [if_neg hlt]
      obtain ⟨hmem, hle, hall⟩ := ih best
      refine ⟨?_, hle, ?_⟩
      · rcases hmem with heq | hmem
        · exact Or.inl heq
        · exact Or.inr (List.mem_cons_of_mem _ hmem)
      · intro x hx
        rcases List.mem_cons.mp hx with rfl | hx
        · exact le_trans hle (not_lt.mp hlt)
        · exact hall x hx

lemma bfsAux_succ (g : Graph) (fuel : ℕ) (vis fr : List (ℕ × ℕ))
    (par : List ((ℕ × ℕ) × (ℕ × ℕ))) :
    bfsAux g (fuel + 1) vis fr par =
      if bfsNews g vis fr = [] then (vis, par)
      else bfsAux g fuel (vis ++ bfsNews g vis fr) (bfsNews g vis fr)
        (par ++ bfsPar g fr (bfsNews g vis fr)) := rfl

lemma mem_bfsNews {g : Graph} {vis fr : List (ℕ × ℕ)} {n : ℕ × ℕ} :
    n ∈ bfsNews g vis fr ↔
      (∃ f ∈ fr, n ∈ g.succCoords f) ∧ n ∉ vis := by
  unfold bfsNews
  simp [List.mem_dedup, List.mem_filter, List.mem_flatMap]

lemma bfsAux_vis_mono (g : Graph) :
    ∀ (fuel : ℕ) (vis fr : List (ℕ × ℕ)) (par : List ((ℕ × ℕ) × (ℕ × ℕ))),
      vis ⊆ (bfsAux g fuel vis fr par).1 := by
  intro fuel
  induction fuel with
  | zero => intro vis fr par; exact fun a ha => ha
  | succ fuel ih =>
    intro vis fr par
    rw [bfsAux_succ]
    by_cases hnews : bfsNews g vis fr = []
    · rw [if_pos hnews]
      exact fun a ha => ha
    · rw [if_neg hnews]
      intro a ha
      exact ih _ _ _ (List.mem_append_left _ ha)

lemma bfsAux_keys (g : Graph) (s : ℕ × ℕ) :
    ∀ (fuel : ℕ) (vis fr : List (ℕ × ℕ)) (par : List ((ℕ × ℕ) × (ℕ × ℕ))),
      s ∈ vis → (∀ kp ∈ par, kp.1 ≠ s) →
      ∀ kp ∈ (bfsAux g fuel vis fr par).2, kp.1 ≠ s := by
  intro fuel
  induction fuel with
  | zero => intro vis fr par _ hpar; exact hpar
  | succ fuel ih =>
    intro vis fr par hs hpar
    rw [bfsAux_succ]
    by_cases hnews : bfsNews g vis fr = []
    · rw [if_pos hnews]
      exact hpar
    · rw [if_neg hnews]
      refine ih _ _ _ (List.mem_append_left _ hs) ?_
      intro kp hkp
      rcases List.mem_append.mp hkp with h | h
      · exact hpar kp h
      · obtain ⟨n, hn, rfl⟩ := List.mem_map.mp h
        intro heq
        change n = s at heq
        subst heq
        exact absurd hs (mem_bfsNews.mp hn).2

lemma bfsAux_sound (g : Graph) (s : ℕ × ℕ) :
    ∀ (fuel : ℕ) (vis fr : List (ℕ × ℕ)) (par : List ((ℕ × ℕ) × (ℕ × ℕ))),
      fr ⊆ vis → (∀ v ∈ vis, g.Reaches s v) →
      ∀ v ∈ (bfsAux g fuel vis fr par).1, g.Reaches s v := by
  intro fuel
  induction fuel with
  | zero => intro vis fr par _ hvis; exact hvis
  | succ fuel ih =>
    intro vis fr par hfr hvis
    rw [bfsAux_succ]
    by_cases hnews : bfsNews g vis fr = []
    · rw [if_pos hnews]
      exact hvis
    · rw [if_neg hnews]
      refine ih _ _ _ (fun a ha => List.mem_append_right _ ha) ?_
      intro v hv
      rcases List.mem_append.mp hv with h | h
      · exact hvis v h
      · obtain ⟨⟨f, hf, hstep⟩, -⟩ := mem_bfsNews.mp h
        exact Relation.ReflTransGen.tail (hvis f (hfr hf)) hstep

lemma isSome_of_mem_neighborsCoords {g : Graph} {c n : ℕ × ℕ}
    (h : n ∈ g.neighborsCoords c) : (g.node? n.1 n.2).isSome = true := by
  simp only [Graph.neighborsCoords, List.mem_append] at h
  rcases h with ((ha | hb) | hc) | hd
  · obtain ⟨⟨-, hs⟩, rfl⟩ := (mem_guard _ _ _).mp ha
    exact hs
  · obtain ⟨hs, rfl⟩ := (mem_guard _ _ _).mp hb
    exact hs
  · obtain ⟨⟨-, hs⟩, rfl⟩ := (mem_guard _ _ _).mp hc
    exact hs
  · obtain ⟨hs, rfl⟩ := (mem_guard _ _ _).mp hd
    exact hs

lemma mem_coordsList_of_node?_isSome {g : Graph} {x y : ℕ}
    (h : (g.node? x y).isSome = true) : (x, y) ∈ g.coordsList := by
  unfold Graph.node? at h
  rcases hx : g.grid.get? x with _ | col
  · rw [hx] at h
    cases h
  · rw [hx] at h
    simp only [Option.some_bind] at h
    rcases hy : col.get? y with _ | nd
    · rw [hy] at h
      cases h
    · have hxlt : x < g.grid.length := by
        by_contra hc
        rw [List.get?_eq_none.mpr (Nat.le_of_not_lt hc)] at hx
        cases hx
      have hylt : y < col.length := by
        by_contra hc
        rw [List.get?_eq_none.mpr (Nat.le_of_not_lt hc)] at hy
        cases hy
      have hgetD : g.grid.getD x [] = col := by
        have : g.grid.getD x [] = (g.grid.get? x).getD [] := rfl
        rw [this, hx]
        rfl
      unfold Graph.coordsList
      rw [List.mem_flatMap]
      refine ⟨x, List.mem_range.mpr hxlt, ?_⟩
      rw [List.mem_map]
      exact ⟨y, List.mem_range.mpr (by rw [hgetD]; exact hylt), rfl⟩

lemma succCoords_subset_coordsList {g : Graph} {c n : ℕ × ℕ}
    (h : n ∈ g.succCoords c) : n ∈ g.coordsList :=
  mem_coordsList_of_node?_isSome
    (isSome_of_mem_neighborsCoords (List.mem_of_mem_filter h))

lemma nodup_length_le {α : Type} [DecidableEq α] {l l' : List α}
    (hn : l.Nodup) (hs : l ⊆ l') : l.length ≤ l'.length := by
  calc l.length = l.toFinset.card := (List.toFinset_card_of_nodup hn).symm
    _ ≤ l'.toFinset.card := Finset.card_le_card
        (fun a ha => List.mem_toFinset.mpr (hs (List.mem_toFinset.mp ha)))
    _ ≤ l'.length := List.toFinset_card_le l'

lemma bfsAux_closed (g : Graph) (allowed : List (ℕ × ℕ))
    (hco : ∀ n ∈ g.coordsList, n ∈ allowed) :
    ∀ (fuel : ℕ) (vis fr : List (ℕ × ℕ)) (par : List ((ℕ × ℕ) × (ℕ × ℕ))),
      vis.Nodup →
      (∀ v ∈ vis, v ∈ allowed) →
      (∀ v ∈ vis, v ∉ fr → ∀ n ∈ g.succCoords v, n ∈ vis) →
      fr ⊆ vis →
      allowed.length + 1 ≤ vis.length + fuel →
      ∀ v ∈ (bfsAux g fuel vis fr par).1, ∀ n ∈ g.succCoords v,
        n ∈ (bfsAux g fuel vis fr par).1 := by
  intro fuel
  induction fuel with
  | zero =>
    intro vis fr par hnd hrange hsemi hfr hcount
    exfalso
    have := nodup_length_le hnd (fun a ha => hrange a ha)
    omega
  | succ fuel ih =>
    intro vis fr par hnd hrange hsemi hfr hcount
    rw [bfsAux_succ]
    by_cases hnews : bfsNews g vis fr = []
    · rw [if_pos hnews]
      intro v hv n hn
      by_cases hvfr : v ∈ fr
      · by_contra hnvis
        have hmem : n ∈ bfsNews g vis fr :=
          mem_bfsNews.mpr ⟨⟨v, hvfr, hn⟩, hnvis⟩
        rw [hnews] at hmem
        cases hmem
      · exact hsemi v hv hvfr n hn
    · rw [if_neg hnews]
      refine ih (vis ++ bfsNews g vis fr) (bfsNews g vis fr) _ ?_ ?_ ?_ ?_ ?_
      · rw [List.nodup_append]
        refine ⟨hnd, List.nodup_dedup _, ?_⟩
        intro a ha hb
        exact (mem_bfsNews.mp hb).2 ha
      · intro v hv
        rcases List.mem_append.mp hv with h | h
        · exact hrange v h
        · obtain ⟨⟨f, -, hstep⟩, -⟩ := mem_bfsNews.mp h
          exact hco v (succCoords_subset_coordsList hstep)
      · intro v hv hvfr n hn
        rcases List.mem_append.mp hv with h | h
        · by_cases hvf : v ∈ fr
          · by_cases hnvis : n ∈ vis
            · exact List.mem_append_left _ hnvis
            · exact List.mem_append_right _
                (mem_bfsNews.mpr ⟨⟨v, hvf, hn⟩, hnvis⟩)
          · exact List.mem_append_left _ (hsemi v h hvf n hn)
        · exact absurd h hvfr
      · exact fun a ha => List.mem_append_right _ ha
      · have hlen : 0 < (bfsNews g vis fr).length :=
          List.length_pos.mpr hnews
        rw [List.length_append]
        omega

lemma reaches_mem_of_closed {g : Graph} {s : ℕ × ℕ} {R : List (ℕ × ℕ)}
    (hs : s ∈ R) (hcl : ∀ v ∈ R, ∀ n ∈ g.succCoords v, n ∈ R) :
    ∀ n, g.Reaches s n → n ∈ R := by
  intro n h
  induction h with
  | refl => exact hs
  | tail hab hbc ih => exact hcl _ ih _ hbc

lemma reachableFrom_spec (g : Graph) (s : ℕ × ℕ) :
    s ∈ g.reachableFrom s
    ∧ (∀ v ∈ g.reachableFrom s, g.Reaches s v)
    ∧ (∀ n, g.Reaches s n → n ∈ g.reachableFrom s)
    ∧ (∀ kp ∈ (g.reachData s).2, kp.1 ≠ s) := by
  have hsmem : s ∈ g.reachableFrom s :=
    bfsAux_vis_mono g g.searchFuel [s] [s] [] (List.mem_singleton_self s)
  refine ⟨hsmem, ?_, ?_, ?_⟩
  · refine bfsAux_sound g s g.searchFuel [s] [s] [] (fun a ha => ha) ?_
    intro v hv
    rw [List.mem_singleton] at hv
    subst hv
    exact Relation.ReflTransGen.refl
  · have hclosed := bfsAux_closed g (s :: g.coordsList)
      (fun n hn => List.mem_cons_of_mem _ hn)
      g.searchFuel [s] [s] []
      (List.nodup_singleton s)
      (by
        intro v hv
        rw [List.mem_singleton] at hv
        subst hv
        exact List.mem_cons_self _ _)
      (by
        intro v hv hvfr n hn
        exact absurd hv hvfr)
      (fun a ha => ha)
      (by simp [Graph.searchFuel]; omega)
    exact reaches_mem_of_closed hsmem hclosed
  · refine bfsAux_keys g s g.searchFuel [s] [s] []
      (List.mem_singleton_self s) ?_
    intro kp hkp
    cases hkp

/-- C9: when the start and end resolve to the same node the search yields
the single-point path `[s]`; when the destination is unreachable from the
start, the search returns a path ending at a reachable node that
minimises the diagonal-distance heuristic to the destination over all
reachable nodes (the `closest: true` fallback).  The model search is a
total function, so no input makes it raise. -/
theorem C9_search_edge_cases (g : Graph) (s e : ℕ × ℕ) :
    (s = e → g.search s e = [s])
    ∧ (¬ g.Reaches s e →
        ∃ c, (g.search s e).getLast? = some c ∧ g.Reaches s c
          ∧ ∀ n, g.Reaches s n → diagHeur c e ≤ diagHeur n e) := by
  obtain ⟨hs, hsound, hcomp, hkeys⟩ := reachableFrom_spec g s
  constructor
  · rintro rfl
    unfold Graph.search
    dsimp only
    rw [if_pos (show s ∈ (g.reachData s).1 from hs)]
    exact pathTo_of_lookup_none (lookup_eq_none_of_keys_ne hkeys) _
  · intro hne
    have henv : e ∉ (g.reachData s).1 := fun hmem => hne (hsound e hmem)
    unfold Graph.search
    dsimp only
    rw [if_neg henv]
    obtain ⟨hmem, -, hall⟩ :=
      closestBy_props (fun n => diagHeur n e) (g.reachData s).1 s
    refine ⟨closestBy (fun n => diagHeur n e) (g.reachData s).1 s,
      pathTo_getLast? _ _ _, ?_, ?_⟩
    · rcases hmem with heq | hmem
      · rw [heq]
        exact hsound s hs
      · exact hsound _ hmem
    · intro n hn
      exact hall n (hcomp n hn)

/-- A literal 2×2 grid graph for concrete search evaluation: column `x=0`
has a walkable cell at `y=0` and a wall at `y=1`; likewise column `x=1`.
Cell `(1,1)` is a wall, hence unreachable. -/
def gWit : Graph := Graph.build [[some 1, some 0], [some 1, some 0]]

/-- Witness for `C9_search_edge_cases` on `gWit`: a same-node query yields
the single-point path, and the query to the walled cell `(1,1)` ends at a
reachable heuristic-minimiser. -/
theorem C9_search_edge_cases_witness :
    (gWit.search (0, 0) (0, 0) = [(0, 0)])
    ∧ ∃ c, (gWit.search (0, 0) (1, 1)).getLast? = some c
        ∧ gWit.Reaches (0, 0) c
        ∧ ∀ n, gWit.Reaches (0, 0) n →
            diagHeur c (1, 1) ≤ diagHeur n (1, 1) :=
  ⟨(C9_search_edge_cases gWit (0, 0) (0, 0)).1 rfl,
   (C9_search_edge_cases gWit (0, 0) (1, 1)).2
     (fun hr => absurd ((reachableFrom_spec gWit (0, 0)).2.2.1 (1, 1) hr)
       (by decide))⟩
